import Mathlib

/-!
Shallow embedding of `src/cache-search.c`: an inverted index (chained hash
table from normalized words to file lists) fronted by a fixed-capacity LRU
cache, plus the tokenizer used to build the index.

Modelling conventions:
  - C strings are Lean `String`s; a possibly-NULL string pointer is an
    `Option String`.
  - A `FileNode *` linked list is a `List String`; the NULL pointer is the
    empty list (a `FileNode` chain is NULL iff it has no nodes).
  - The global array `hash_table` is a total function `Nat → List Entry`
    (bucket index to chain); the C program only ever applies it below
    `HASH_SIZE` (theorem `hash_str_lt`).
  - The global array `cache_slots` together with `cache_count` is the list
    of occupied slots, most-recently-used first.
  - `unsigned long` arithmetic wraps modulo `2 ^ 64`.
  - `malloc` failure paths are not modelled (allocation always succeeds).
-/

namespace CacheSearch

/-- Classifier `isalnum` from `<ctype.h>` in the default "C" locale:
ASCII digits and letters. -/
def isAlnumChar (c : Char) : Bool :=
  (('0' ≤ c && c ≤ '9') || ('A' ≤ c && c ≤ 'Z') || ('a' ≤ c && c ≤ 'z'))

/-- Mapping `tolower` from `<ctype.h>` in the default "C" locale: ASCII
upper-case letters map to lower-case, everything else is unchanged. -/
def toLowerChar (c : Char) : Char :=
  if 'A' ≤ c && c ≤ 'Z' then Char.ofNat (c.toNat + 32) else c

/-- `HASH_SIZE` from the source: the hash table has 10007 buckets. -/
def HASH_SIZE : Nat := 10007

/-- One step of the djb2 loop: `h = ((h << 5) + h) + c`, in wrapping
`unsigned long` (64-bit) arithmetic. -/
def djb2Step (h c : Nat) : Nat := (h * 32 + h + c) % 2 ^ 64

/-- The djb2 accumulation loop of `hash_str` over the bytes of the string. -/
def djb2 : Nat → List Nat → Nat
  | h, [] => h
  | h, c :: rest => djb2 (djb2Step h c) rest

/-- `hash_str`: djb2 over the characters of `s` starting from 5381, reduced
modulo `HASH_SIZE`. -/
def hash_str (s : String) : Nat :=
  djb2 5381 (s.data.map Char.toNat) % HASH_SIZE

/-- An index entry (`WordEntry`): the word and the list of files containing
it, most recently added first. -/
abbrev Entry := String × List String

/-- The chained hash table `hash_table`: bucket index to chain of entries. -/
abbrev HashTable := Nat → List Entry

/-- The table at program start: every bucket is the NULL (empty) chain. -/
def emptyTable : HashTable := fun _ => []

/-- `filelist_contains`: linear scan of a file list for `filename`. -/
def filelist_contains (files : List String) (filename : String) : Bool :=
  files.any (fun n => n == filename)

/-- `add_file_to_list` acting on the entry's file list: skip if already
present, otherwise push a copy of the name at the front. -/
def add_file_to_list (files : List String) (filename : String) : List String :=
  if filelist_contains files filename then files else filename :: files

/-- The chain scan shared by `find_word_entry` and `insert_word`: first
entry in the bucket whose word compares equal to `w`. -/
def find_in_bucket (w : String) (b : List Entry) : Option Entry :=
  b.find? (fun e => e.1 == w)

/-- `find_word_entry`: scan the chain of the bucket selected by
`hash_str`. -/
def find_word_entry (w : String) (t : HashTable) : Option Entry :=
  find_in_bucket w (t (hash_str w))

/-- The found-branch of `insert_word`: add the file to the first entry of
the chain whose word matches, leaving everything else alone. -/
def bucket_add_file (w f : String) : List Entry → List Entry
  | [] => []
  | e :: rest =>
      if e.1 == w then (e.1, add_file_to_list e.2 f) :: rest
      else e :: bucket_add_file w f rest

/-- `insert_word`: no-op on the empty word; otherwise add the file to the
existing entry of `w`'s bucket if one matches, else push a fresh entry
(word copied, file list `[f]`) at the front of the chain. -/
def insert_word (w f : String) (t : HashTable) : HashTable :=
  if w = "" then t
  else
    let idx := hash_str w
    let b := t idx
    let b' := if (find_in_bucket w b).isSome then bucket_add_file w f b
              else (w, add_file_to_list [] f) :: b
    fun i => if i = idx then b' else t i

/-- A sequence of `insert_word` calls applied in order. -/
def applyInserts (ops : List (String × String)) (t : HashTable) : HashTable :=
  ops.foldl (fun acc op => insert_word op.1 op.2 acc) t

/-- The tokenizer loop of `index_file`: `buf` holds the pending token in
reverse; alphanumeric characters are lowercased and appended while the
buffer is below the 255-character cap, any other character flushes a
non-empty pending token, and end of stream flushes the final token. -/
def tokenizeAux : List Char → List Char → List String
  | [], buf => if buf.isEmpty then [] else [String.mk buf.reverse]
  | c :: rest, buf =>
      if isAlnumChar c then
        if buf.length < 255 then tokenizeAux rest (toLowerChar c :: buf)
        else tokenizeAux rest buf
      else
        if buf.isEmpty then tokenizeAux rest buf
        else String.mk buf.reverse :: tokenizeAux rest []

/-- Token sequence `index_file` extracts from a character stream. -/
def tokenize (s : List Char) : List String :=
  tokenizeAux s []

/-- `index_file` on a readable file: insert every token of the contents
under the display name, in stream order. -/
def index_file (contents : String) (displayname : String) (t : HashTable) :
    HashTable :=
  (tokenize contents.data).foldl (fun acc w => insert_word w displayname acc) t

/-- `CACHE_CAP` from the source: the LRU cache holds at most 5 slots. -/
def CACHE_CAP : Nat := 5

/-- One cache slot: the aliased word pointer and the aliased file list. -/
abbrev CacheSlot := String × List String

/-- The scan-and-shift shared by `cache_get` and `cache_put`: locate the
first slot whose word matches (`cache_index_of`), and shift the slots in
front of it back by one (the `for (j = idx; j > 0; --j)` loop), which
amounts to removing the first matching slot from the list while keeping
every other slot in order. Returns `none` when `cache_index_of` would
return `-1`. -/
def extract_slot (w : String) : List CacheSlot → Option (CacheSlot × List CacheSlot)
  | [] => none
  | sl :: rest =>
      if sl.1 == w then some (sl, rest)
      else
        match extract_slot w rest with
        | none => none
        | some (hit, rest') => some (hit, sl :: rest')

/-- `cache_get`: on a miss return NULL and leave the slots alone; on a hit
move the slot to the front and return its file list. -/
def cache_get (w : String) (s : List CacheSlot) : List String × List CacheSlot :=
  match extract_slot w s with
  | none => ([], s)
  | some (hit, rest) => (hit.2, hit :: rest)

/-- `cache_put`: no-op on a NULL word or NULL file list. If the word is
already cached, update that slot's file list and move it to the front.
Otherwise insert a new slot at the front, shifting the others back and
dropping the back (least-recently-used) slot when the cache is full. -/
def cache_put (w : Option String) (files : List String) (s : List CacheSlot) :
    List CacheSlot :=
  match w with
  | none => s
  | some wd =>
      if files = [] then s
      else
        match extract_slot wd s with
        | some (hit, rest) => (hit.1, files) :: rest
        | none =>
            if s.length < CACHE_CAP then (wd, files) :: s
            else (wd, files) :: s.dropLast

/-- Where a served lookup result came from. -/
inductive Prov
  | cache
  | index
  deriving DecidableEq

/-- Result of one `lookup_with_cache` call: the returned file list (NULL as
`[]`), the provenance when a result was served, the lines printed by the
call, and the cache slots afterwards. -/
structure LookupOut where
  files : List String
  prov : Option Prov
  printed : List String
  slots : List CacheSlot
  deriving DecidableEq

/-- `lookup_with_cache`: try the cache first; a non-NULL hit prints
`"from cache"` and returns it. Otherwise consult the index; a found entry
with a non-NULL file list is put into the cache, prints
`"from hash table"`, and is returned. Anything else returns NULL with no
output. -/
def lookup_with_cache (w : String) (t : HashTable) (s : List CacheSlot) :
    LookupOut :=
  let r := cache_get w s
  if r.1 ≠ [] then ⟨r.1, some Prov.cache, ["from cache"], r.2⟩
  else
    match find_word_entry w t with
    | some e =>
        if e.2 ≠ [] then
          ⟨e.2, some Prov.index, ["from hash table"], cache_put (some e.1) e.2 r.2⟩
        else ⟨[], none, [], r.2⟩
    | none => ⟨[], none, [], r.2⟩

/-- Cache-state transition of one interactive query. -/
def step_cache (t : HashTable) (s : List CacheSlot) (q : String) : List CacheSlot :=
  (lookup_with_cache q t s).slots

/-- Cache state after a sequence of interactive queries. -/
def run_cache (t : HashTable) (s : List CacheSlot) (qs : List String) :
    List CacheSlot :=
  qs.foldl (step_cache t) s

/-- Whether a word currently occupies some cache slot. -/
def word_in_cache (w : String) (s : List CacheSlot) : Bool :=
  s.any (fun sl => sl.1 == w)

/-- Temporal predicate of claim C4, computed along a query trace: whether
`w` has been queried at least once since it was last evicted from the
cache, or since index build if it was never evicted. Each query of `w`
sets the flag; each step that drops `w` from the cache (an eviction of
`w`) clears it; other steps leave it alone. -/
def since_status (t : HashTable) (w : String) :
    List CacheSlot → Bool → List String → Bool
  | _, b, [] => b
  | s, b, q :: rest =>
      let s' := step_cache t s q
      let b' :=
        if q = w then true
        else if word_in_cache w s && !word_in_cache w s' then false
        else b
      since_status t w s' b' rest

/-- Invariant of tables built by `insert_word` from the empty table: every
entry's file list is non-empty (an entry is created together with its
first file) and duplicate-free. -/
def TableInv (t : HashTable) : Prop :=
  ∀ i : Nat, ∀ e ∈ t i, e.2 ≠ [] ∧ e.2.Nodup

/-- Cache states reachable through the cache interface from the initial
empty cache, by `cache_get` and `cache_put` calls with arbitrary
arguments. -/
inductive CacheReach : List CacheSlot → Prop
  | init : CacheReach []
  | get (w : String) {s : List CacheSlot} :
      CacheReach s → CacheReach (cache_get w s).2
  | put (w : Option String) (files : List String) {s : List CacheSlot} :
      CacheReach s → CacheReach (cache_put w files s)

/-- A successful `extract_slot` returns a slot holding the searched word. -/
theorem extract_slot_word {w : String} {s : List CacheSlot}
    {hit : CacheSlot} {rest : List CacheSlot}
    (h : extract_slot w s = some (hit, rest)) : hit.1 = w := by
  induction s generalizing rest with
  | nil => simp [extract_slot] at h
  | cons sl tail ih =>
      by_cases hw : sl.1 == w
      · simp [extract_slot, hw] at h
        rcases h with ⟨h1, _⟩
        rw [← h1]
        exact eq_of_beq hw
      · simp [extract_slot, hw] at h
        rcases h2 : extract_slot w tail with _ | p
        · rw [h2] at h
          simp at h
        · rw [h2] at h
          rcases p with ⟨hit2, rest2⟩
          simp at h
          rcases h with ⟨h3, _⟩
          exact ih (h3 ▸ h2)

/-- A successful `extract_slot` permutes the slots: the original list is a
permutation of the extracted slot put in front of the rest. -/
theorem extract_slot_perm {w : String} {s : List CacheSlot}
    {hit : CacheSlot} {rest : List CacheSlot}
    (h : extract_slot w s = some (hit, rest)) : s.Perm (hit :: rest) := by
  induction s generalizing rest with
  | nil => simp [extract_slot] at h
  | cons sl tail ih =>
      by_cases hw : sl.1 == w
      · simp [extract_slot, hw] at h
        rcases h with ⟨h1, h2⟩
        rw [h1, h2]
      · simp [extract_slot, hw] at h
        rcases h2 : extract_slot w tail with _ | p
        · rw [h2] at h
          simp at h
        · rcases p with ⟨hit2, rest2⟩
          rw [h2] at h
          simp at h
          rcases h with ⟨h3, h4⟩
          have hperm := ih (h3 ▸ h2)
          rw [← h4]
          exact (hperm.cons sl).trans (List.Perm.swap hit sl rest2)

/-- `extract_slot` succeeds exactly when some slot holds the word. -/
theorem extract_slot_isSome (w : String) (s : List CacheSlot) :
    (extract_slot w s).isSome = word_in_cache w s := by
  induction s with
  | nil => simp [extract_slot, word_in_cache]
  | cons sl tail ih =>
      by_cases hw : sl.1 == w
      · simp [extract_slot, hw, word_in_cache]
      · simp only [extract_slot, hw, if_false, word_in_cache, List.any_cons,
          Bool.false_or]
        rw [word_in_cache] at ih
        rcases h2 : extract_slot w tail with _ | p
        · rw [← ih, h2]
          simp
        · rcases p with ⟨hit2, rest2⟩
          rw [← ih, h2]
          simp

/-- `extract_slot` fails exactly when no slot holds the word. -/
theorem extract_slot_none_iff {w : String} {s : List CacheSlot} :
    extract_slot w s = none ↔ word_in_cache w s = false := by
  rw [← extract_slot_isSome]
  cases extract_slot w s <;> simp

/-- Cache membership as membership of the word column. -/
theorem word_in_cache_iff {w : String} {s : List CacheSlot} :
    word_in_cache w s = true ↔ w ∈ s.map Prod.fst := by
  simp only [word_in_cache, List.any_eq_true, List.mem_map, beq_iff_eq]

/-- Negated form of `word_in_cache_iff`. -/
theorem word_in_cache_false_iff {w : String} {s : List CacheSlot} :
    word_in_cache w s = false ↔ w ∉ s.map Prod.fst := by
  rw [← word_in_cache_iff]
  cases word_in_cache w s <;> simp

/-- `cache_get` only permutes the slots. -/
theorem cache_get_perm (w : String) (s : List CacheSlot) :
    ((cache_get w s).2).Perm s := by
  rcases h : extract_slot w s with _ | ⟨hit, rest⟩
  · simp [cache_get, h]
  · simp only [cache_get, h]
    exact (extract_slot_perm h).symm

/-- Result of `cache_put` on an uncached word below capacity. -/
theorem cache_put_fresh {wd : String} {files : List String}
    {s : List CacheSlot} (hf : files ≠ []) (hx : extract_slot wd s = none)
    (hlen : s.length < CACHE_CAP) :
    cache_put (some wd) files s = (wd, files) :: s := by
  simp [cache_put, hf, hx, hlen]

/-- Result of `cache_put` on an uncached word at capacity: the back slot
is evicted. -/
theorem cache_put_evict {wd : String} {files : List String}
    {s : List CacheSlot} (hf : files ≠ []) (hx : extract_slot wd s = none)
    (hlen : ¬s.length < CACHE_CAP) :
    cache_put (some wd) files s = (wd, files) :: s.dropLast := by
  simp [cache_put, hf, hx, hlen]

/-- Result of `cache_put` on a word already cached: refresh and move to
front. -/
theorem cache_put_refresh {wd : String} {files : List String}
    {s : List CacheSlot} {hit : CacheSlot} {rest : List CacheSlot}
    (hf : files ≠ []) (hx : extract_slot wd s = some (hit, rest)) :
    cache_put (some wd) files s = (hit.1, files) :: rest := by
  simp [cache_put, hf, hx]

/-- Reachable cache states respect the capacity and hold at most one slot
per distinct word. -/
theorem cache_reach_inv {s : List CacheSlot} (h : CacheReach s) :
    s.length ≤ CACHE_CAP ∧ (s.map Prod.fst).Nodup := by
  induction h with
  | init => simp
  | get w hs ih =>
      rename_i s0
      have hperm := cache_get_perm w s0
      refine ⟨hperm.length_eq ▸ ih.1, ?_⟩
      exact ((hperm.map Prod.fst).nodup_iff).mpr ih.2
  | put w files hs ih =>
      rename_i s0
      rcases w with _ | wd
      · simpa [cache_put] using ih
      · by_cases hf : files = []
        · simpa [cache_put, hf] using ih
        · rcases hx : extract_slot wd s0 with _ | ⟨hit, rest⟩
          · have hmem : wd ∉ s0.map Prod.fst :=
              word_in_cache_false_iff.mp (extract_slot_none_iff.mp hx)
            by_cases hlen : s0.length < CACHE_CAP
            · rw [cache_put_fresh hf hx hlen]
              refine ⟨?_, ?_⟩
              · simp only [List.length_cons]
                simp only [CACHE_CAP] at hlen ⊢
                omega
              · simp only [List.map_cons, List.nodup_cons]
                exact ⟨hmem, ih.2⟩
            · have hsub : s0.dropLast.Sublist s0 := List.dropLast_sublist s0
              rw [cache_put_evict hf hx hlen]
              constructor
              · have h1 := ih.1
                simp only [List.length_cons, List.length_dropLast]
                simp only [CACHE_CAP] at hlen h1 ⊢
                omega
              · simp only [List.map_cons, List.nodup_cons]
                refine ⟨fun hc => hmem ((hsub.map Prod.fst).mem hc), ?_⟩
                exact ih.2.sublist (hsub.map Prod.fst)
          · have hperm := extract_slot_perm hx
            rw [cache_put_refresh hf hx]
            have hlen2 := hperm.length_eq
            have hnd : ((hit :: rest).map Prod.fst).Nodup :=
              ((hperm.map Prod.fst).nodup_iff).mp ih.2
            constructor
            · have h1 := ih.1
              simp only [List.length_cons] at hlen2 ⊢
              omega
            · simpa using hnd

/-- Every slot of a reachable cache state holds a non-empty (non-NULL)
file list: `cache_put` refuses NULL file lists and `cache_get` only
permutes slots. -/
theorem cache_reach_files_ne {s : List CacheSlot} (h : CacheReach s) :
    ∀ sl ∈ s, sl.2 ≠ [] := by
  induction h with
  | init => simp
  | get w hs ih =>
      rename_i s0
      intro sl hmem
      exact ih sl ((cache_get_perm w s0).mem_iff.mp hmem)
  | put w files hs ih =>
      rename_i s0
      rcases w with _ | wd
      · simpa [cache_put] using ih
      · by_cases hf : files = []
        · simpa [cache_put, hf] using ih
        · rcases hx : extract_slot wd s0 with _ | ⟨hit, rest⟩
          · by_cases hlen : s0.length < CACHE_CAP
            · intro sl hmem
              rw [cache_put_fresh hf hx hlen] at hmem
              rcases List.mem_cons.mp hmem with heq | hmem2
              · rw [heq]
                exact hf
              · exact ih sl hmem2
            · intro sl hmem
              rw [cache_put_evict hf hx hlen] at hmem
              rcases List.mem_cons.mp hmem with heq | hmem2
              · rw [heq]
                exact hf
              · exact ih sl ((List.dropLast_sublist s0).mem hmem2)
          · have hperm := extract_slot_perm hx
            intro sl hmem
            rw [cache_put_refresh hf hx] at hmem
            rcases List.mem_cons.mp hmem with heq | hmem2
            · rw [heq]
              exact hf
            · exact ih sl (hperm.mem_iff.mpr (List.mem_cons_of_mem hit hmem2))

/-- `filelist_contains` decides membership. -/
theorem filelist_contains_iff {fs : List String} {f : String} :
    filelist_contains fs f = true ↔ f ∈ fs := by
  simp [filelist_contains]

/-- The inserted file is a member of the updated file list. -/
theorem mem_add_file_self (fs : List String) (f : String) :
    f ∈ add_file_to_list fs f := by
  unfold add_file_to_list
  by_cases h : filelist_contains fs f = true
  · simpa [h] using filelist_contains_iff.mp h
  · simp [h]

/-- `add_file_to_list` never removes a member. -/
theorem mem_add_file_of_mem {fs : List String} {g : String} (f : String)
    (h : g ∈ fs) : g ∈ add_file_to_list fs f := by
  unfold add_file_to_list
  by_cases hc : filelist_contains fs f = true
  · simpa [hc]
  · simp [hc, h]

/-- `add_file_to_list` preserves freedom from duplicates. -/
theorem add_file_nodup {fs : List String} (f : String) (h : fs.Nodup) :
    (add_file_to_list fs f).Nodup := by
  unfold add_file_to_list
  by_cases hc : filelist_contains fs f = true
  · simpa [hc]
  · have : f ∉ fs := fun hm => hc (filelist_contains_iff.mpr hm)
    simp [hc, List.nodup_cons, this, h]

/-- `add_file_to_list` always returns a non-empty list. -/
theorem add_file_ne_nil (fs : List String) (f : String) :
    add_file_to_list fs f ≠ [] := by
  unfold add_file_to_list
  by_cases hc : filelist_contains fs f = true
  · have := filelist_contains_iff.mp hc
    simp [hc]
    intro hnil
    rw [hnil] at this
    simp at this
  · simp [hc]

/-- A found entry holds the searched word. -/
theorem find_in_bucket_word {w : String} {b : List Entry} {e : Entry}
    (h : find_in_bucket w b = some e) : e.1 = w := by
  unfold find_in_bucket at h
  have h2 := List.find?_some h
  exact eq_of_beq h2

/-- A found entry is a member of its bucket. -/
theorem find_in_bucket_mem {w : String} {b : List Entry} {e : Entry}
    (h : find_in_bucket w b = some e) : e ∈ b :=
  List.mem_of_find?_eq_some h

/-- After `bucket_add_file` for the same word, the bucket scan finds the
updated entry. -/
theorem find_bucket_add_same {w f : String} {b : List Entry} {e : Entry}
    (h : find_in_bucket w b = some e) :
    find_in_bucket w (bucket_add_file w f b) =
      some (e.1, add_file_to_list e.2 f) := by
  induction b with
  | nil => simp [find_in_bucket] at h
  | cons e0 rest ih =>
      by_cases h0 : (e0.1 == w) = true
      · have he : e0 = e := by
          unfold find_in_bucket at h
          simp only [List.find?_cons, h0] at h
          exact Option.some.inj h
        subst he
        unfold bucket_add_file
        rw [if_pos h0]
        unfold find_in_bucket
        simp only [List.find?_cons, h0]
      · have hb : (e0.1 == w) = false := by simpa using h0
        unfold find_in_bucket at h
        simp only [List.find?_cons, hb] at h
        unfold bucket_add_file
        rw [if_neg h0]
        unfold find_in_bucket
        simp only [List.find?_cons, hb]
        exact ih h

/-- `bucket_add_file` for a different word does not change what the bucket
scan finds. -/
theorem find_bucket_add_other {w wd f : String} (hne : w ≠ wd)
    (b : List Entry) :
    find_in_bucket w (bucket_add_file wd f b) = find_in_bucket w b := by
  induction b with
  | nil => simp [bucket_add_file]
  | cons e0 rest ih =>
      by_cases h0 : (e0.1 == wd) = true
      · have he0 : e0.1 = wd := eq_of_beq h0
        have hw1 : (e0.1 == w) = false := by
          rw [he0]
          simp only [beq_eq_false_iff_ne, ne_eq]
          exact fun hc => hne hc.symm
        unfold bucket_add_file
        rw [if_pos h0]
        unfold find_in_bucket
        simp only [List.find?_cons, hw1]
      · unfold bucket_add_file
        rw [if_neg h0]
        unfold find_in_bucket
        by_cases h1 : (e0.1 == w) = true
        · simp only [List.find?_cons, h1]
        · have hb : (e0.1 == w) = false := by simpa using h1
          simp only [List.find?_cons, hb]
          exact ih

/-- `bucket_add_file` preserves the per-entry invariant. -/
theorem bucket_add_file_inv {w f : String} {b : List Entry}
    (h : ∀ e ∈ b, e.2 ≠ [] ∧ e.2.Nodup) :
    ∀ e ∈ bucket_add_file w f b, e.2 ≠ [] ∧ e.2.Nodup := by
  induction b with
  | nil => simp [bucket_add_file]
  | cons e0 rest ih =>
      by_cases h0 : e0.1 == w
      · simp only [bucket_add_file, h0, if_pos]
        intro e he
        rcases List.mem_cons.mp he with heq | hm
        · rw [heq]
          exact ⟨add_file_ne_nil _ _, add_file_nodup _ (h e0 (by simp)).2⟩
        · exact h e (List.mem_cons_of_mem _ hm)
      · simp only [bucket_add_file, h0, if_neg, if_false]
        intro e he
        rcases List.mem_cons.mp he with heq | hm
        · rw [heq]
          exact h e0 (by simp)
        · exact ih (fun e2 he2 => h e2 (List.mem_cons_of_mem _ he2)) e hm

/-- One bucket of the table after `insert_word` on a non-empty word. -/
theorem insert_word_apply {w : String} (f : String) {t : HashTable}
    (hw : w ≠ "") (i : Nat) :
    insert_word w f t i =
      if i = hash_str w then
        (if (find_in_bucket w (t (hash_str w))).isSome then
          bucket_add_file w f (t (hash_str w))
        else (w, add_file_to_list [] f) :: t (hash_str w))
      else t i := by
  simp [insert_word, hw]

/-- `insert_word` preserves the table invariant. -/
theorem insert_word_inv {w f : String} {t : HashTable} (h : TableInv t) :
    TableInv (insert_word w f t) := by
  by_cases hw : w = ""
  · simpa [insert_word, hw] using h
  · intro i e he
    rw [insert_word_apply f hw i] at he
    by_cases hi : i = hash_str w
    · rw [if_pos hi] at he
      by_cases hf : (find_in_bucket w (t (hash_str w))).isSome
      · rw [if_pos hf] at he
        exact bucket_add_file_inv (h (hash_str w)) e he
      · rw [if_neg hf] at he
        rcases List.mem_cons.mp he with heq | hm
        · rw [heq]
          constructor
          · show add_file_to_list [] f ≠ []
            exact add_file_ne_nil [] f
          · show (add_file_to_list [] f).Nodup
            exact add_file_nodup f (by simp)
        · exact h (hash_str w) e hm
    · rw [if_neg hi] at he
      exact h i e he

/-- The empty table satisfies the invariant. -/
theorem table_inv_empty : TableInv emptyTable := by
  intro i e he
  simp [emptyTable] at he

/-- `applyInserts` preserves the table invariant. -/
theorem applyInserts_inv {t : HashTable} (ops : List (String × String))
    (h : TableInv t) : TableInv (applyInserts ops t) := by
  induction ops generalizing t with
  | nil => exact h
  | cons op rest ih => exact ih (insert_word_inv h)

/-- After `insert_word w f`, looking up `w` finds an entry whose file list
contains `f`. -/
theorem find_insert_self {w : String} (f : String) (t : HashTable)
    (hw : w ≠ "") :
    ∃ e, find_word_entry w (insert_word w f t) = some e ∧ f ∈ e.2 := by
  unfold find_word_entry
  rw [insert_word_apply f hw (hash_str w), if_pos rfl]
  by_cases hf : (find_in_bucket w (t (hash_str w))).isSome
  · rw [if_pos hf]
    rcases Option.isSome_iff_exists.mp hf with ⟨e, he⟩
    refine ⟨(e.1, add_file_to_list e.2 f), find_bucket_add_same he, ?_⟩
    show f ∈ add_file_to_list e.2 f
    exact mem_add_file_self e.2 f
  · rw [if_neg hf]
    refine ⟨(w, add_file_to_list [] f), ?_, ?_⟩
    · unfold find_in_bucket
      simp [List.find?_cons]
    · show f ∈ add_file_to_list [] f
      exact mem_add_file_self [] f

/-- `insert_word` with any arguments preserves membership of a file in the
entry found for `w`. -/
theorem find_insert_preserve {w f : String} {t : HashTable} {e : Entry}
    (wd fd : String) (hfind : find_word_entry w t = some e) (hf : f ∈ e.2) :
    ∃ e2, find_word_entry w (insert_word wd fd t) = some e2 ∧ f ∈ e2.2 := by
  by_cases hwd : wd = ""
  · exact ⟨e, by simpa [insert_word, hwd] using hfind, hf⟩
  · unfold find_word_entry at hfind ⊢
    rw [insert_word_apply fd hwd (hash_str w)]
    by_cases hi : hash_str w = hash_str wd
    · rw [if_pos hi, ← hi]
      by_cases hsame : w = wd
      · subst hsame
        rw [if_pos (by simp [hfind])]
        refine ⟨(e.1, add_file_to_list e.2 fd), find_bucket_add_same hfind, ?_⟩
        show f ∈ add_file_to_list e.2 fd
        exact mem_add_file_of_mem fd hf
      · by_cases hb : (find_in_bucket wd (t (hash_str w))).isSome
        · rw [if_pos hb, find_bucket_add_other hsame]
          exact ⟨e, hfind, hf⟩
        · rw [if_neg hb]
          refine ⟨e, ?_, hf⟩
          unfold find_in_bucket
          have hb2 : (wd == w) = false := by
            simp only [beq_eq_false_iff_ne, ne_eq]
            exact fun hc => hsame hc.symm
          simp only [List.find?_cons, hb2]
          exact hfind
    · rw [if_neg hi]
      exact ⟨e, hfind, hf⟩

/-- A whole sequence of inserts preserves membership of a file in the
entry found for `w`. -/
theorem find_applyInserts_preserve {w f : String} {t : HashTable} {e : Entry}
    (ops : List (String × String)) (hfind : find_word_entry w t = some e)
    (hf : f ∈ e.2) :
    ∃ e2, find_word_entry w (applyInserts ops t) = some e2 ∧ f ∈ e2.2 := by
  induction ops generalizing t e with
  | nil => exact ⟨e, hfind, hf⟩
  | cons op rest ih =>
      rcases find_insert_preserve op.1 op.2 hfind hf with ⟨e1, h1, h2⟩
      exact ih h1 h2

/-- After a sequence of inserts containing `(w, d)`, looking up `w` finds
an entry whose file list contains `d`. -/
theorem mem_after_inserts {w d : String} (ops : List (String × String))
    (hw : w ≠ "") (hmem : (w, d) ∈ ops) (t : HashTable) :
    ∃ e, find_word_entry w (applyInserts ops t) = some e ∧ d ∈ e.2 := by
  revert hmem
  induction ops generalizing t with
  | nil =>
      intro hmem
      simp at hmem
  | cons op rest ih =>
      intro hmem
      rcases op with ⟨ow, od⟩
      simp only [applyInserts, List.foldl_cons]
      rcases List.mem_cons.mp hmem with heq | hm
      · simp only [Prod.mk.injEq] at heq
        rcases heq with ⟨rfl, rfl⟩
        rcases find_insert_self d t hw with ⟨e, he, hd⟩
        exact find_applyInserts_preserve rest he hd
      · exact ih (insert_word ow od t) hm

/-- Cache membership is invariant under permutation of the slots. -/
theorem word_in_cache_perm {s s2 : List CacheSlot} (hp : s.Perm s2)
    (w : String) : word_in_cache w s = word_in_cache w s2 := by
  by_cases h1 : word_in_cache w s = true
  · rw [h1,
      word_in_cache_iff.mpr (((hp.map Prod.fst).mem_iff).mp
        (word_in_cache_iff.mp h1))]
  · have h2 : word_in_cache w s = false := by simpa using h1
    rw [h2]
    symm
    rw [word_in_cache_false_iff] at h2 ⊢
    exact fun hc => h2 (((hp.map Prod.fst).mem_iff).mpr hc)

/-- After a guarded `cache_put` of `u`, the word `u` is cached. -/
theorem cache_put_mem_self {u : String} {fs : List String}
    (s : List CacheSlot) (hf : fs ≠ []) :
    word_in_cache u (cache_put (some u) fs s) = true := by
  rcases hx : extract_slot u s with _ | ⟨hit, rest⟩
  · by_cases hlen : s.length < CACHE_CAP
    · rw [cache_put_fresh hf hx hlen]
      simp [word_in_cache]
    · rw [cache_put_evict hf hx hlen]
      simp [word_in_cache]
  · rw [cache_put_refresh hf hx]
    simp [word_in_cache, extract_slot_word hx]

/-- `cache_put` of `u` never makes a different uncached word cached. -/
theorem cache_put_mem_other {w u : String} {fs : List String}
    {s : List CacheSlot} (hne : w ≠ u) (h : word_in_cache w s = false) :
    word_in_cache w (cache_put (some u) fs s) = false := by
  by_cases hf : fs = []
  · have hput : cache_put (some u) fs s = s := by simp [cache_put, hf]
    rw [hput]
    exact h
  · rcases hx : extract_slot u s with _ | ⟨hit, rest⟩
    · have hwm : w ∉ s.map Prod.fst := word_in_cache_false_iff.mp h
      by_cases hlen : s.length < CACHE_CAP
      · rw [cache_put_fresh hf hx hlen]
        rw [word_in_cache_false_iff]
        simp only [List.map_cons, List.mem_cons]
        push_neg
        exact ⟨hne, hwm⟩
      · rw [cache_put_evict hf hx hlen]
        rw [word_in_cache_false_iff]
        simp only [List.map_cons, List.mem_cons]
        push_neg
        exact ⟨hne,
          fun hc => hwm (((List.dropLast_sublist s).map Prod.fst).mem hc)⟩
    · have hp := extract_slot_perm hx
      have h2 : word_in_cache w (hit :: rest) = false := by
        rw [← word_in_cache_perm hp w]
        exact h
      rw [cache_put_refresh hf hx]
      simp only [word_in_cache, List.any_cons, Bool.or_eq_false_iff] at h2 ⊢
      exact ⟨h2.1, h2.2⟩

/-- Computation of `lookup_with_cache` on a cache hit with a non-NULL file
list. -/
theorem lookup_of_hit {w : String} {t : HashTable} {s : List CacheSlot}
    {hit : CacheSlot} {rest : List CacheSlot}
    (hx : extract_slot w s = some (hit, rest)) (hne : hit.2 ≠ []) :
    lookup_with_cache w t s =
      ⟨hit.2, some Prov.cache, ["from cache"], hit :: rest⟩ := by
  have hg : cache_get w s = (hit.2, hit :: rest) := by
    simp [cache_get, hx]
  unfold lookup_with_cache
  rw [hg]
  simp [hne]

/-- Computation of `lookup_with_cache` on a cache miss when the index has
the word with a non-NULL file list. -/
theorem lookup_of_miss_found {w : String} {t : HashTable}
    {s : List CacheSlot} {e : Entry} (hx : extract_slot w s = none)
    (hf : find_word_entry w t = some e) (hne : e.2 ≠ []) :
    lookup_with_cache w t s =
      ⟨e.2, some Prov.index, ["from hash table"],
        cache_put (some e.1) e.2 s⟩ := by
  have hg : cache_get w s = ([], s) := by
    simp [cache_get, hx]
  unfold lookup_with_cache
  rw [hg, hf]
  simp [hne]

/-- Computation of `lookup_with_cache` on a cache miss when the index does
not have the word. -/
theorem lookup_of_miss_notfound {w : String} {t : HashTable}
    {s : List CacheSlot} (hx : extract_slot w s = none)
    (hf : find_word_entry w t = none) :
    lookup_with_cache w t s = ⟨[], none, [], s⟩ := by
  have hg : cache_get w s = ([], s) := by
    simp [cache_get, hx]
  unfold lookup_with_cache
  rw [hg, hf]
  simp

/-- Computation of `lookup_with_cache` on a cache miss when the index
entry has a NULL file list. -/
theorem lookup_of_miss_empty {w : String} {t : HashTable}
    {s : List CacheSlot} {e : Entry} (hx : extract_slot w s = none)
    (hf : find_word_entry w t = some e) (hne : e.2 = []) :
    lookup_with_cache w t s = ⟨[], none, [], s⟩ := by
  have hg : cache_get w s = ([], s) := by
    simp [cache_get, hx]
  unfold lookup_with_cache
  rw [hg, hf]
  simp [hne]

/-- Querying a word that the index holds with a non-NULL file list always
leaves that word cached. -/
theorem step_cache_mem_self {w : String} {t : HashTable} {e : Entry}
    (hfind : find_word_entry w t = some e) (hne : e.2 ≠ [])
    (s : List CacheSlot) : word_in_cache w (step_cache t s w) = true := by
  have hw : e.1 = w := find_in_bucket_word hfind
  unfold step_cache
  rcases hx : extract_slot w s with _ | ⟨hit, rest⟩
  · rw [lookup_of_miss_found hx hfind hne]
    show word_in_cache w (cache_put (some e.1) e.2 s) = true
    rw [hw]
    exact cache_put_mem_self s hne
  · by_cases hh : hit.2 = []
    · have hg : cache_get w s = ([], hit :: rest) := by
        simp [cache_get, hx, hh]
      unfold lookup_with_cache
      rw [hg, hfind]
      simp only [ne_eq, not_true_eq_false, if_false, hne, if_pos]
      show word_in_cache w (cache_put (some e.1) e.2 (hit :: rest)) = true
      rw [hw]
      exact cache_put_mem_self _ hne
    · rw [lookup_of_hit hx hh]
      show word_in_cache w (hit :: rest) = true
      simp [word_in_cache, extract_slot_word hx]

/-- Querying a different word never makes an uncached word cached. -/
theorem step_cache_mem_other {q w : String} {t : HashTable}
    {s : List CacheSlot} (hqw : q ≠ w) (h : word_in_cache w s = false) :
    word_in_cache w (step_cache t s q) = false := by
  unfold step_cache
  have hperm : ((cache_get q s).2).Perm s := cache_get_perm q s
  have hg2 : word_in_cache w (cache_get q s).2 = false := by
    rw [word_in_cache_perm hperm w]
    exact h
  unfold lookup_with_cache
  by_cases hr : (cache_get q s).1 ≠ []
  · rw [if_pos hr]
    exact hg2
  · rw [if_neg hr]
    rcases hf : find_word_entry q t with _ | e
    · exact hg2
    · have hq : e.1 = q := find_in_bucket_word hf
      show word_in_cache w
        ((if e.2 ≠ [] then
          (⟨e.2, some Prov.index, ["from hash table"],
            cache_put (some e.1) e.2 (cache_get q s).2⟩ : LookupOut)
        else ⟨[], none, [], (cache_get q s).2⟩).slots) = false
      by_cases hne : e.2 ≠ []
      · rw [if_pos hne]
        show word_in_cache w (cache_put (some e.1) e.2 (cache_get q s).2)
          = false
        rw [hq]
        exact cache_put_mem_other (fun hc => hqw hc.symm) hg2
      · rw [if_neg hne]
        exact hg2

/-- One interactive query only performs `cache_get` and guarded
`cache_put` operations on the cache. -/
theorem step_cache_reach {t : HashTable} {s : List CacheSlot} (q : String)
    (h : CacheReach s) : CacheReach (step_cache t s q) := by
  unfold step_cache lookup_with_cache
  by_cases hr : (cache_get q s).1 ≠ []
  · rw [if_pos hr]
    exact h.get q
  · rw [if_neg hr]
    rcases hf : find_word_entry q t with _ | e
    · exact h.get q
    · show CacheReach
        ((if e.2 ≠ [] then
          (⟨e.2, some Prov.index, ["from hash table"],
            cache_put (some e.1) e.2 (cache_get q s).2⟩ : LookupOut)
        else ⟨[], none, [], (cache_get q s).2⟩).slots)
      by_cases hne : e.2 ≠ []
      · rw [if_pos hne]
        exact (h.get q).put (some e.1) e.2
      · rw [if_neg hne]
        exact h.get q

/-- A whole query trace only performs cache-interface operations. -/
theorem run_cache_reach {t : HashTable} (qs : List String)
    {s : List CacheSlot} (h : CacheReach s) :
    CacheReach (run_cache t s qs) := by
  induction qs generalizing s with
  | nil => exact h
  | cons q rest ih => exact ih (step_cache_reach q h)

/-- A word that no query of the trace mentions stays uncached. -/
theorem run_cache_not_queried {w : String} {t : HashTable}
    {qs : List String} {s : List CacheSlot} (hq : ∀ q ∈ qs, q ≠ w)
    (h : word_in_cache w s = false) :
    word_in_cache w (run_cache t s qs) = false := by
  induction qs generalizing s with
  | nil => exact h
  | cons q rest ih =>
      exact ih (fun q2 hm => hq q2 (List.mem_cons_of_mem q hm))
        (step_cache_mem_other (hq q (by simp)) h)

/-- Central temporal lemma: along any query trace, the `since_status` flag
of an indexed word with a non-NULL file list coincides with that word
being cached. -/
theorem since_status_eq_mem {w : String} {t : HashTable} {e : Entry}
    (hfind : find_word_entry w t = some e) (hne : e.2 ≠ [])
    (qs : List String) :
    ∀ s : List CacheSlot,
      since_status t w s (word_in_cache w s) qs
        = word_in_cache w (run_cache t s qs) := by
  induction qs with
  | nil =>
      intro s
      rfl
  | cons q rest ih =>
      intro s
      have hb : (if q = w then true
          else if word_in_cache w s && !word_in_cache w (step_cache t s q)
            then false
          else word_in_cache w s) = word_in_cache w (step_cache t s q) := by
        by_cases hq : q = w
        · rw [if_pos hq, hq]
          exact (step_cache_mem_self hfind hne s).symm
        · rw [if_neg hq]
          by_cases hws : word_in_cache w s = true
          · cases hs2 : word_in_cache w (step_cache t s q) with
            | false => simp [hws, hs2]
            | true => simp [hws, hs2]
          · have h0 : word_in_cache w s = false := by simpa using hws
            rw [h0]
            simp only [Bool.false_and, Bool.false_eq_true, if_false]
            exact (step_cache_mem_other hq h0).symm
      show since_status t w (step_cache t s q)
          (if q = w then true
           else if word_in_cache w s && !word_in_cache w (step_cache t s q)
             then false
           else word_in_cache w s) rest
        = word_in_cache w (run_cache t (step_cache t s q) rest)
      rw [hb]
      exact ih (step_cache t s q)

/-- In a cache state whose slots all hold non-NULL file lists, a lookup is
served from the cache exactly when the word is currently cached. -/
theorem lookup_prov_cache_iff {w : String} {t : HashTable}
    {s : List CacheSlot} (hnes : ∀ sl ∈ s, sl.2 ≠ []) :
    ((lookup_with_cache w t s).prov = some Prov.cache
      ↔ word_in_cache w s = true) := by
  rcases hx : extract_slot w s with _ | ⟨hit, rest⟩
  · have hw : word_in_cache w s = false := extract_slot_none_iff.mp hx
    rw [hw]
    simp only [Bool.false_eq_true, iff_false]
    rcases hf : find_word_entry w t with _ | e
    · rw [lookup_of_miss_notfound hx hf]
      simp
    · by_cases hne2 : e.2 = []
      · rw [lookup_of_miss_empty hx hf hne2]
        simp
      · rw [lookup_of_miss_found hx hf hne2]
        simp
  · have hmem : hit ∈ s :=
      (extract_slot_perm hx).mem_iff.mpr (List.mem_cons_self _ _)
    have hne : hit.2 ≠ [] := hnes hit hmem
    rw [lookup_of_hit hx hne]
    have hw : word_in_cache w s = true := by
      rw [← extract_slot_isSome, hx]
      rfl
    rw [hw]
    simp

/-- A lookup of an indexed, currently uncached word is served from the
index. -/
theorem lookup_prov_index_of {w : String} {t : HashTable}
    {s : List CacheSlot} {e : Entry} (hx : word_in_cache w s = false)
    (hf : find_word_entry w t = some e) (hne : e.2 ≠ []) :
    (lookup_with_cache w t s).prov = some Prov.index := by
  have hx2 : extract_slot w s = none := extract_slot_none_iff.mpr hx
  rw [lookup_of_miss_found hx2 hf hne]

/-- Counterexample to claim C4 as stated: for the word "zzz", absent from
the (empty) index, the trace consisting of one query of "zzz" leaves the
word queried-since-build, yet the next lookup of "zzz" is not served from
the cache (it is served from nowhere at all). -/
theorem lookup_provenance_counterexample :
    since_status emptyTable "zzz" [] false ["zzz"] = true
    ∧ (lookup_with_cache "zzz" emptyTable
        (run_cache emptyTable [] ["zzz"])).prov ≠ some Prov.cache := by
  decide

/-- Amended claim C4: restricted to words present in the index (with their
necessarily non-empty document set), along every query trace from the
empty cache the next lookup of the word is served from the cache exactly
when the word has been queried at least once since it was last evicted
from the cache, or since index build if it was never evicted; in
particular a lookup of the word after a trace that never queried it (its
first lookup) is served from the index. -/
theorem lookup_provenance_temporal (ops : List (String × String))
    (w : String) (qs : List String) (e : Entry)
    (hfind : find_word_entry w (applyInserts ops emptyTable) = some e) :
    ((lookup_with_cache w (applyInserts ops emptyTable)
        (run_cache (applyInserts ops emptyTable) [] qs)).prov
        = some Prov.cache
      ↔ since_status (applyInserts ops emptyTable) w [] false qs = true)
    ∧ ((∀ q ∈ qs, q ≠ w) →
        (lookup_with_cache w (applyInserts ops emptyTable)
          (run_cache (applyInserts ops emptyTable) [] qs)).prov
          = some Prov.index) := by
  have hne : e.2 ≠ [] :=
    (applyInserts_inv ops table_inv_empty (hash_str w) e
      (find_in_bucket_mem hfind)).1
  have hreach : CacheReach (run_cache (applyInserts ops emptyTable) [] qs) :=
    run_cache_reach qs CacheReach.init
  have hnes := cache_reach_files_ne hreach
  have hsince := since_status_eq_mem hfind hne qs []
  have h0 : word_in_cache w ([] : List CacheSlot) = false := rfl
  rw [h0] at hsince
  constructor
  · rw [hsince]
    exact lookup_prov_cache_iff hnes
  · intro hq
    exact lookup_prov_index_of (run_cache_not_queried hq rfl) hfind hne

/-- Witness for `lookup_provenance_temporal`: with "banana" indexed, after
the trace `["banana"]` the next lookup is served from the cache and the
temporal flag agrees; after the empty trace the lookup of "banana" is
served from the index. -/
theorem lookup_provenance_temporal_witness :
    ((lookup_with_cache "banana"
        (applyInserts [("banana", "doc1.txt")] emptyTable)
        (run_cache (applyInserts [("banana", "doc1.txt")] emptyTable) []
          ["banana"])).prov = some Prov.cache
      ↔ since_status (applyInserts [("banana", "doc1.txt")] emptyTable)
          "banana" [] false ["banana"] = true)
    ∧ (lookup_with_cache "banana"
        (applyInserts [("banana", "doc1.txt")] emptyTable)
        (run_cache (applyInserts [("banana", "doc1.txt")] emptyTable) []
          [])).prov = some Prov.index := by
  have h1 := lookup_provenance_temporal [("banana", "doc1.txt")] "banana"
    ["banana"] ("banana", ["doc1.txt"]) (by decide)
  have h2 := lookup_provenance_temporal [("banana", "doc1.txt")] "banana"
    [] ("banana", ["doc1.txt"]) (by decide)
  exact ⟨h1.1, h2.2 (by decide)⟩

/-- Claim C1: after any sequence of inserts from the empty table that
contains `insert(w, d)` at least once — interleaved arbitrarily with other
inserts and repeated any number of times — `find(w)` returns a document
set in which `d` occurs exactly once. -/
theorem insert_find_count_one (ops : List (String × String)) (w d : String)
    (hw : w ≠ "") (hmem : (w, d) ∈ ops) :
    ∃ e, find_word_entry w (applyInserts ops emptyTable) = some e
      ∧ e.2.count d = 1 := by
  rcases mem_after_inserts ops hw hmem emptyTable with ⟨e, he, hd⟩
  have hinv := applyInserts_inv ops table_inv_empty
  have hbmem : e ∈ applyInserts ops emptyTable (hash_str w) :=
    find_in_bucket_mem he
  have hn := hinv (hash_str w) e hbmem
  exact ⟨e, he, List.count_eq_one_of_mem hn.2 hd⟩

/-- Witness for `insert_find_count_one`: a repeated insert of the same
word-document pair interleaved with another insert still yields count
one. -/
theorem insert_find_count_one_witness :
    ∃ e, find_word_entry "apple"
        (applyInserts [("apple", "doc1.txt"), ("apple", "doc1.txt"),
          ("pear", "doc2.txt"), ("apple", "doc1.txt")] emptyTable) = some e
      ∧ e.2.count "doc1.txt" = 1 :=
  insert_find_count_one _ "apple" "doc1.txt" (by decide) (by decide)

/-- Claim C3: on any cache state, `cache_get` of the same word twice in a
row returns the same result both times; if the first call was a hit
(`extract_slot` found the word, i.e. `cache_index_of` did not return -1),
the word occupies the front slot after each of the two calls; and on a
miss `cache_get` leaves the cache state entirely unchanged. -/
theorem cache_get_repeat_stable (w : String) (s : List CacheSlot) :
    (cache_get w (cache_get w s).2).1 = (cache_get w s).1
    ∧ ((extract_slot w s).isSome = true →
        (cache_get w s).2.head?.map Prod.fst = some w
        ∧ (cache_get w (cache_get w s).2).2.head?.map Prod.fst = some w)
    ∧ (extract_slot w s = none → (cache_get w s).2 = s) := by
  rcases h : extract_slot w s with _ | ⟨hit, rest⟩
  · simp [cache_get, h]
  · have hword : hit.1 = w := extract_slot_word h
    have hbeq : (hit.1 == w) = true := by simp [hword]
    have h2 : extract_slot w (hit :: rest) = some (hit, rest) := by
      simp [extract_slot, hbeq]
    simp [cache_get, h, h2, hword]

/-- Witness for `cache_get_repeat_stable` at a concrete hit and a concrete
miss. -/
theorem cache_get_repeat_stable_witness :
    ((cache_get "a" (cache_get "a" [("b", ["g"]), ("a", ["f"])]).2).1 =
        (cache_get "a" [("b", ["g"]), ("a", ["f"])]).1
      ∧ (cache_get "a" [("b", ["g"]), ("a", ["f"])]).2.head?.map Prod.fst = some "a"
      ∧ (cache_get "a" (cache_get "a" [("b", ["g"]), ("a", ["f"])]).2).2.head?.map
          Prod.fst = some "a")
    ∧ (cache_get "z" [("b", ["g"]), ("a", ["f"])]).2 = [("b", ["g"]), ("a", ["f"])] := by
  have h1 := cache_get_repeat_stable "a" [("b", ["g"]), ("a", ["f"])]
  have h2 := cache_get_repeat_stable "z" [("b", ["g"]), ("a", ["f"])]
  refine ⟨⟨h1.1, (h1.2.1 (by decide)).1, (h1.2.1 (by decide)).2⟩, h2.2.2 (by decide)⟩

/-- Claim C2: every reachable cache state holds at most `CACHE_CAP = 5`
slots with at most one slot per distinct word, and a put of an uncached
word into a full cache drops exactly the back (least-recently-used) slot
while every other slot survives shifted back one position. -/
theorem cache_capacity_and_eviction {s : List CacheSlot} (w : String)
    (fs : List String) (h : CacheReach s) :
    (s.length ≤ CACHE_CAP ∧ (s.map Prod.fst).Nodup)
    ∧ (s.length = CACHE_CAP → w ∉ s.map Prod.fst → fs ≠ [] →
        cache_put (some w) fs s = (w, fs) :: s.dropLast) := by
  refine ⟨cache_reach_inv h, ?_⟩
  intro hlen hmem hfs
  have hx : extract_slot w s = none :=
    extract_slot_none_iff.mpr (word_in_cache_false_iff.mpr hmem)
  exact cache_put_evict hfs hx (by omega)

/-- Witness for `cache_capacity_and_eviction`: filling the cache with five
distinct words and putting a sixth evicts the least-recently-used slot. -/
theorem cache_capacity_and_eviction_witness :
    cache_put (some "f") ["6"]
        (cache_put (some "e") ["5"] (cache_put (some "d") ["4"]
          (cache_put (some "c") ["3"] (cache_put (some "b") ["2"]
            (cache_put (some "a") ["1"] []))))) =
      ("f", ["6"]) ::
        (cache_put (some "e") ["5"] (cache_put (some "d") ["4"]
          (cache_put (some "c") ["3"] (cache_put (some "b") ["2"]
            (cache_put (some "a") ["1"] []))))).dropLast := by
  have h := cache_capacity_and_eviction "f" ["6"]
    (((((CacheReach.init.put (some "a") ["1"]).put (some "b") ["2"]).put
      (some "c") ["3"]).put (some "d") ["4"]).put (some "e") ["5"])
  exact h.2 (by decide) (by decide) (by decide)

/-- Claim C10: `cache_put` with a NULL word or a NULL (empty) file list is
a no-op, every occupied slot of a reachable cache state holds a non-empty
file list, and `cache_get` returns a non-NULL result exactly for the words
currently cached. -/
theorem cache_put_guards_and_get {s : List CacheSlot} (h : CacheReach s) :
    (∀ fs, cache_put none fs s = s)
    ∧ (∀ w, cache_put (some w) [] s = s)
    ∧ (∀ sl ∈ s, sl.2 ≠ [])
    ∧ (∀ u, (cache_get u s).1 ≠ [] ↔ u ∈ s.map Prod.fst) := by
  refine ⟨fun fs => rfl, fun w => by simp [cache_put],
    cache_reach_files_ne h, ?_⟩
  intro u
  rcases hx : extract_slot u s with _ | ⟨hit, rest⟩
  · have hu : u ∉ s.map Prod.fst :=
      word_in_cache_false_iff.mp (extract_slot_none_iff.mp hx)
    simp [cache_get, hx, hu]
  · have hword : hit.1 = u := extract_slot_word hx
    have hmem : hit ∈ s :=
      (extract_slot_perm hx).mem_iff.mpr (List.mem_cons_self _ _)
    have hne := cache_reach_files_ne h hit hmem
    have humem : u ∈ s.map Prod.fst := List.mem_map.mpr ⟨hit, hmem, hword⟩
    simp [cache_get, hx, hne, humem]

/-- Witness for `cache_put_guards_and_get` on the concrete reachable state
with one slot. -/
theorem cache_put_guards_and_get_witness :
    cache_put none ["g"] [("a", ["f"])] = [("a", ["f"])]
    ∧ cache_put (some "b") [] [("a", ["f"])] = [("a", ["f"])]
    ∧ ("a", ["f"]).2 ≠ ([] : List String)
    ∧ ((cache_get "a" [("a", ["f"])]).1 ≠ [] ↔
        "a" ∈ [("a", ["f"])].map Prod.fst) := by
  have h := cache_put_guards_and_get (CacheReach.init.put (some "a") ["f"])
  have hs : cache_put (some "a") ["f"] ([] : List CacheSlot) = [("a", ["f"])] := by
    decide
  rw [hs] at h
  exact ⟨h.1 ["g"], h.2.1 "b", h.2.2.1 ("a", ["f"]) (by decide), h.2.2.2 "a"⟩

/-- `hash_str` stays below the table size, so the bucket accesses
`hash_table[idx]` in `insert_word` and `find_word_entry` are in bounds
(claim C9). -/
theorem hash_str_lt (s : String) : hash_str s < HASH_SIZE := by
  have h : 0 < HASH_SIZE := by norm_num [HASH_SIZE]
  exact Nat.mod_lt _ h

/-- Inserting the empty word is a no-op on the whole table (claim C8). -/
theorem insert_empty_word_noop (f : String) (t : HashTable) :
    insert_word "" f t = t := by
  simp [insert_word]

/-- Counterexample to claim C5 as stated: on a concrete cache hit the
program prints the line `"from cache"`, not `"served from cache"`, and on
a concrete index hit it prints `"from hash table"`, not
`"served from index"`. -/
theorem lookup_printed_counterexample :
    ((lookup_with_cache "banana" emptyTable [("banana", ["doc2.txt"])]).prov =
        some Prov.cache
      ∧ (lookup_with_cache "banana" emptyTable
          [("banana", ["doc2.txt"])]).printed ≠ ["served from cache"])
    ∧ ((lookup_with_cache "banana"
          (insert_word "banana" "doc1.txt" emptyTable) []).prov = some Prov.index
      ∧ (lookup_with_cache "banana"
          (insert_word "banana" "doc1.txt" emptyTable) []).printed ≠
            ["served from index"]) := by
  decide

/-- Amended claim C5: on every lookup the emitted provenance line is
exactly `"from cache"` when the result came from the cache, exactly
`"from hash table"` when it came from the index, and nothing is printed
when no result is served. -/
theorem lookup_printed_line (w : String) (t : HashTable) (s : List CacheSlot) :
    (lookup_with_cache w t s).printed =
      match (lookup_with_cache w t s).prov with
      | some Prov.cache => ["from cache"]
      | some Prov.index => ["from hash table"]
      | none => [] := by
  rw [lookup_with_cache]
  by_cases h1 : (cache_get w s).1 ≠ []
  · simp [h1]
  · rcases h2 : find_word_entry w t with _ | e
    · simp [h1, h2]
    · by_cases h3 : e.2 ≠ []
      · simp [h1, h2, h3]
      · simp [h1, h2, h3]

/-- Claim C6: after indexing `doc1.txt` = "apple banana" and then
`doc2.txt` = "banana cherry", the first lookup of "banana" is served from
the index with the file list `["doc2.txt", "doc1.txt"]` (most recent
insert first), and a second lookup of "banana" is served from the cache
with the same result. -/
theorem scenario_banana_lookups :
    (lookup_with_cache "banana"
        (index_file "banana cherry" "doc2.txt"
          (index_file "apple banana" "doc1.txt" emptyTable)) []).prov =
      some Prov.index
    ∧ (lookup_with_cache "banana"
        (index_file "banana cherry" "doc2.txt"
          (index_file "apple banana" "doc1.txt" emptyTable)) []).files =
      ["doc2.txt", "doc1.txt"]
    ∧ (lookup_with_cache "banana"
        (index_file "banana cherry" "doc2.txt"
          (index_file "apple banana" "doc1.txt" emptyTable))
        (lookup_with_cache "banana"
          (index_file "banana cherry" "doc2.txt"
            (index_file "apple banana" "doc1.txt" emptyTable)) []).slots).prov =
      some Prov.cache
    ∧ (lookup_with_cache "banana"
        (index_file "banana cherry" "doc2.txt"
          (index_file "apple banana" "doc1.txt" emptyTable))
        (lookup_with_cache "banana"
          (index_file "banana cherry" "doc2.txt"
            (index_file "apple banana" "doc1.txt" emptyTable)) []).slots).files =
      (lookup_with_cache "banana"
        (index_file "banana cherry" "doc2.txt"
          (index_file "apple banana" "doc1.txt" emptyTable)) []).files := by
  decide

/-- Tokenizing the stream `"Doc1 has: apple, Apple!"` yields exactly
`["doc1", "has", "apple", "apple"]` (claim C7). -/
theorem tokenize_round_trip :
    tokenize "Doc1 has: apple, Apple!".data = ["doc1", "has", "apple", "apple"] := by
  decide

end CacheSearch
